import Mathlib

/-!
Verification of the span-import pipeline (apps/script/import_spans.py).

The script reads line-delimited span records, groups them by thread,
sorts each group by start time, and replays each group through an
explicit stack that infers parent/child nesting from interval timing,
re-emitting every span with rebased timestamps.  The definitions below
are a shallow embedding of that script: `build_thread_traces`,
`send_span`'s observable effect (`mkEmission`, `sendSpanTimes`) and the
per-thread stack traversal of the import loop (`processThreadAux`).
-/

namespace PgFerret

/-- One captured span record, as parsed from one JSON line of the input
file.  Timestamps are integer nanoseconds; `parentSpanId` is `none` when
the field is absent. -/
structure SpanRecord where
  traceId : String
  spanId : String
  parentSpanId : Option String
  threadId : Nat
  name : String
  startTimeUnixNano : Int
  endTimeUnixNano : Int
  attributes : List (String × String)
deriving DecidableEq

/-- Lines 65-66 of the script: a missing or falsy `parentSpanId` is
replaced by the all-zero sentinel before the record is kept. -/
def defaultParent (r : SpanRecord) : SpanRecord :=
  if r.parentSpanId = none ∨ r.parentSpanId = some ("") then
    { r with parentSpanId := some ("0000000000000000") }
  else r

/-- Erase the `parentSpanId` field, keeping every other field. -/
def stripParent (r : SpanRecord) : SpanRecord :=
  { r with parentSpanId := none }

/-- The sort key of `build_thread_traces`: ascending `startTimeUnixNano`. -/
def spanLe (a b : SpanRecord) : Prop :=
  a.startTimeUnixNano ≤ b.startTimeUnixNano

instance : DecidableRel spanLe :=
  fun a b => inferInstanceAs (Decidable (_ ≤ _))

instance : IsTotal SpanRecord spanLe :=
  ⟨fun a b => Int.le_total _ _⟩

instance : IsTrans SpanRecord spanLe :=
  ⟨fun _ _ _ h1 h2 => le_trans h1 h2⟩

/-- Value of one hexadecimal digit, as accepted by Python `int(s, 16)`. -/
def hexDigitVal (c : Char) : Option Nat :=
  if '0' ≤ c ∧ c ≤ '9' then some (c.toNat - '0'.toNat)
  else if 'a' ≤ c ∧ c ≤ 'f' then some (c.toNat - 'a'.toNat + 10)
  else if 'A' ≤ c ∧ c ≤ 'F' then some (c.toNat - 'A'.toNat + 10)
  else none

/-- Accumulating hexadecimal parse; `none` once any character is not a
hex digit (Python raises there). -/
def hexAccum : List Char → Option Nat → Option Nat
  | [], acc => acc
  | c :: cs, acc =>
    match acc, hexDigitVal c with
    | some a, some d => hexAccum cs (some (a * 16 + d))
    | _, _ => hexAccum cs none

/-- Parse a hexadecimal character list; empty input fails as in Python. -/
def hexVal (cs : List Char) : Option Nat :=
  match cs with
  | [] => none
  | _ => hexAccum cs (some 0)

/-- Lines 25-26 of `send_span`: `int(span["traceId"][:32], 16)` and
`int(span["spanId"][:16], 16)` — only the first `n` characters of the
identifier feed the parsed identity. -/
def idVal (n : Nat) (s : String) : Option Nat :=
  hexVal (s.data.take n)

/-- The observable effect of one `send_span` call: the identity, name and
attributes handed to the tracer, the parent choice (the position, in the
thread's processing order, of the record whose context became the parent
context, or `none`), and the duration `end − start` that is added to the
sampled current time. -/
structure Emission where
  traceIdNum : Option Nat
  spanIdNum : Option Nat
  name : String
  parent : Option Nat
  durationNs : Int
  attrs : List (String × String)
deriving DecidableEq

/-- The per-record payload of `send_span` for a given parent choice. -/
def mkEmission (s : SpanRecord) (parent : Option Nat) : Emission :=
  { traceIdNum := idVal 32 s.traceId
    spanIdNum := idVal 16 s.spanId
    name := s.name
    parent := parent
    durationNs := s.endTimeUnixNano - s.startTimeUnixNano
    attrs := s.attributes }

/-- Lines 41-44 of `send_span`: `start_ns = now_ns` and
`end_ns = now_ns + (endTimeUnixNano - startTimeUnixNano)`. -/
def sendSpanTimes (nowNs : Int) (s : SpanRecord) : Int × Int :=
  (nowNs, nowNs + (s.endTimeUnixNano - s.startTimeUnixNano))

/-- One stack entry of the import loop: the dict `{end_ns, ctx}`; the
context is identified by the position of its record in the thread's
processing order. -/
structure StackEntry where
  end_ns : Int
  idx : Nat
deriving DecidableEq

/-- The `while` loop at lines 85-86: pop while the stack is nonempty and
the top entry's `end_ns` is `<=` the current span's start. -/
def popCompleted (startNs : Int) : List StackEntry → List StackEntry
  | [] => []
  | e :: rest => if e.end_ns ≤ startNs then popCompleted startNs rest else e :: rest

/-- The per-thread loop at lines 74-86: the parent context is the top of
the stack (or none); the span is emitted, pushed, and then entries whose
`end_ns` is `<=` the current span's start are popped.  `i` numbers the
records of this thread in processing order. -/
def processThreadAux : List SpanRecord → Nat → List StackEntry → List Emission
  | [], _, _ => []
  | s :: rest, i, stack =>
    mkEmission s ((stack.head?).map (·.idx)) ::
      processThreadAux rest (i + 1)
        (popCompleted s.startTimeUnixNano ({ end_ns := s.endTimeUnixNano, idx := i } :: stack))

/-- Traversal of one thread's sorted record list, starting from the empty
stack. -/
def processThread (spans : List SpanRecord) : List Emission :=
  processThreadAux spans 0 []

/-- First-occurrence key scan: the thread ids of `spans`, in order of
first appearance, skipping ids already in `seen`. -/
def threadKeysAux : List SpanRecord → List Nat → List Nat
  | [], _ => []
  | s :: rest, seen =>
    if s.threadId ∈ seen then threadKeysAux rest seen
    else s.threadId :: threadKeysAux rest (s.threadId :: seen)

/-- The iteration order of `threads.items()`: thread ids in order of first
appearance in the input (Python dict insertion order). -/
def threadKeys (spans : List SpanRecord) : List Nat :=
  threadKeysAux spans []

/-- `build_thread_traces` (lines 12-21): group spans by `threadId` (dict
insertion order, per-group input order preserved) and sort each group by
`startTimeUnixNano`; Python's sort is stable, embedded as the stable
insertion sort. -/
def build_thread_traces (spans : List SpanRecord) : List (Nat × List SpanRecord) :=
  (threadKeys spans).map fun t =>
    (t, List.insertionSort spanLe (spans.filter fun s => s.threadId = t))

/-- The core of the script after JSON parsing (lines 57-86): default the
`parentSpanId`, group and sort by thread, then run the per-thread stack
traversal, threads in dict order. -/
def import_spans (spans : List SpanRecord) : List Emission :=
  (build_thread_traces (spans.map defaultParent)).flatMap fun p => processThread p.2

/-- Modelled from the spec: the minimum `startTimeUnixNano` across all
records, as used by the global-offset policy of the Tree Builder script,
which is not present under src (src holds only the Stack Reconstructor
script). -/
def minStart : List SpanRecord → Int
  | [] => 0
  | s :: rest => rest.foldl (fun m r => min m r.startTimeUnixNano) s.startTimeUnixNano

/-- Modelled from the spec: the global-offset rebase policy — one offset
`now0 − minStart records`, computed once at run start, applied identically
to every record's start and end. -/
def globalOffsetEmit (now0 : Int) (records : List SpanRecord) (r : SpanRecord) : Int × Int :=
  (r.startTimeUnixNano + (now0 - minStart records),
   r.endTimeUnixNano + (now0 - minStart records))

/-- A concrete record constructor used by scenario inputs. -/
def mkRec (tid : Nat) (s e : Int) (nm tr sp : String) : SpanRecord :=
  { traceId := tr
    spanId := sp
    parentSpanId := none
    threadId := tid
    name := nm
    startTimeUnixNano := s
    endTimeUnixNano := e
    attributes := [] }

/-- Scenario 3, record 1: interval [0, 100]. -/
def recA : SpanRecord := mkRec 7 0 100 ("a") ("aa11") ("a1")

/-- Scenario 3, record 2: interval [10, 50]. -/
def recB : SpanRecord := mkRec 7 10 50 ("b") ("aa11") ("b2")

/-- Scenario 3, record 3: interval [60, 90]. -/
def recC : SpanRecord := mkRec 7 60 90 ("c") ("aa11") ("c3")

theorem processThreadAux_length (spans : List SpanRecord) :
    ∀ i stack, (processThreadAux spans i stack).length = spans.length := by
  induction spans with
  | nil => intro i stack; rfl
  | cons s rest ih => intro i stack; simp [processThreadAux, ih]

theorem processThread_length (spans : List SpanRecord) :
    (processThread spans).length = spans.length :=
  processThreadAux_length spans 0 []

/-- C3: under the per-span rebase of `send_span`, the emitted end minus the
emitted start equals the record's original `endTimeUnixNano` minus its
original `startTimeUnixNano`, exactly, whatever current time is sampled. -/
theorem c3_per_span_duration (nowNs : Int) (s : SpanRecord) :
    (sendSpanTimes nowNs s).2 - (sendSpanTimes nowNs s).1 =
      s.endTimeUnixNano - s.startTimeUnixNano := by
  simp [sendSpanTimes]

/-- C4: under the global-offset policy (modelled from the spec, the Tree
Builder script being absent from src), the difference between the emitted
starts of any two records of the run equals the difference between their
original starts: one shared offset is applied identically to all. -/
theorem c4_global_offset (now0 : Int) (records : List SpanRecord) (a b : SpanRecord)
    (ha : a ∈ records) (hb : b ∈ records) :
    (globalOffsetEmit now0 records a).1 - (globalOffsetEmit now0 records b).1 =
      a.startTimeUnixNano - b.startTimeUnixNano := by
  simp [globalOffsetEmit]

/-- Witness for C4 at a concrete run. -/
theorem c4_global_offset_witness :
    (globalOffsetEmit 5 [recA, recB] recA).1 - (globalOffsetEmit 5 [recA, recB] recB).1 =
      recA.startTimeUnixNano - recB.startTimeUnixNano :=
  c4_global_offset 5 [recA, recB] recA recB (by decide) (by decide)

/-- C9: the emitted identity depends only on the first 32 characters of
`traceId` and the first 16 characters of `spanId`: records agreeing on
those prefixes get equal emitted identities. -/
theorem c9_identity_truncated (a b : SpanRecord) (p q : Option Nat)
    (h1 : a.traceId.data.take 32 = b.traceId.data.take 32)
    (h2 : a.spanId.data.take 16 = b.spanId.data.take 16) :
    (mkEmission a p).traceIdNum = (mkEmission b q).traceIdNum ∧
      (mkEmission a p).spanIdNum = (mkEmission b q).spanIdNum := by
  constructor <;> simp [mkEmission, idVal, h1, h2]

/-- Two records whose `traceId`s agree on the first 32 characters and
differ beyond, likewise `spanId`s on the first 16. -/
def recLong1 : SpanRecord :=
  mkRec 1 0 1 ("x") ("0123456789abcdef0123456789abcdefAAAA") ("fedcba9876543210XX")

/-- Companion of `recLong1` differing only past the identity prefixes. -/
def recLong2 : SpanRecord :=
  mkRec 1 0 1 ("x") ("0123456789abcdef0123456789abcdefBBBB") ("fedcba9876543210YY")

/-- Witness for C9 at concrete identifiers. -/
theorem c9_identity_truncated_witness :
    (mkEmission recLong1 none).traceIdNum = (mkEmission recLong2 none).traceIdNum ∧
      (mkEmission recLong1 none).spanIdNum = (mkEmission recLong2 none).spanIdNum :=
  c9_identity_truncated recLong1 recLong2 none none (by decide) (by decide)

theorem mem_threadKeysAux :
    ∀ (l : List SpanRecord) (seen : List Nat) (t : Nat),
      t ∈ threadKeysAux l seen → t ∉ seen ∧ ∃ r ∈ l, r.threadId = t := by
  intro l
  induction l with
  | nil => intro seen t ht; cases ht
  | cons s rest ih =>
    intro seen t ht
    rw [threadKeysAux] at ht
    by_cases hs : s.threadId ∈ seen
    · rw [if_pos hs] at ht
      obtain ⟨h1, r, hr, hrt⟩ := ih seen t ht
      exact ⟨h1, r, List.mem_cons_of_mem _ hr, hrt⟩
    · rw [if_neg hs] at ht
      rcases List.mem_cons.mp ht with h | h
      · exact ⟨h ▸ hs, s, List.mem_cons_self _ _, h.symm⟩
      · obtain ⟨h1, r, hr, hrt⟩ := ih _ t h
        exact ⟨fun hc => h1 (List.mem_cons_of_mem _ hc), r, List.mem_cons_of_mem _ hr, hrt⟩

theorem sum_filter_threadKeysAux :
    ∀ (l : List SpanRecord) (seen : List Nat),
      ((threadKeysAux l seen).map fun t => (l.filter fun x => x.threadId = t).length).sum =
        (l.filter fun x => x.threadId ∉ seen).length := by
  intro l
  induction l with
  | nil => intro seen; rfl
  | cons s rest ih =>
    intro seen
    rw [threadKeysAux]
    by_cases hs : s.threadId ∈ seen
    · rw [if_pos hs]
      have hpt : ∀ t ∈ threadKeysAux rest seen,
          (fun t => ((s :: rest).filter fun x => x.threadId = t).length) t =
            (fun t => (rest.filter fun x => x.threadId = t).length) t := by
        intro t ht
        obtain ⟨hts, _⟩ := mem_threadKeysAux rest seen t ht
        have hst : ¬(s.threadId = t) := fun hc => hts (hc ▸ hs)
        simp [List.filter_cons, hst]
      rw [List.map_congr_left hpt, ih seen, List.filter_cons]
      simp [hs]
    · rw [if_neg hs]
      simp only [List.map_cons, List.sum_cons]
      have hpt : ∀ t ∈ threadKeysAux rest (s.threadId :: seen),
          (fun t => ((s :: rest).filter fun x => x.threadId = t).length) t =
            (fun t => (rest.filter fun x => x.threadId = t).length) t := by
        intro t ht
        obtain ⟨hts, _⟩ := mem_threadKeysAux rest _ t ht
        have hst : ¬(s.threadId = t) := fun hc => hts (hc ▸ List.mem_cons_self _ _)
        simp [List.filter_cons, hst]
      rw [List.map_congr_left hpt, ih (s.threadId :: seen)]
      have hsplit := List.length_eq_length_filter_add
        (l := rest.filter fun x => x.threadId ∉ seen) (fun x => decide (x.threadId = s.threadId))
      have h1 : ((rest.filter fun x => x.threadId ∉ seen).filter
          fun x => decide (x.threadId = s.threadId)) =
            rest.filter fun x => x.threadId = s.threadId := by
        rw [List.filter_filter]
        apply List.filter_congr
        intro x _
        by_cases hx : x.threadId = s.threadId
        · simp [hx, hs]
        · simp [hx]
      have h2 : ((rest.filter fun x => x.threadId ∉ seen).filter
          fun x => !decide (x.threadId = s.threadId)) =
            rest.filter fun x => x.threadId ∉ s.threadId :: seen := by
        rw [List.filter_filter]
        apply List.filter_congr
        intro x _
        by_cases hx : x.threadId = s.threadId
        · simp [hx, List.mem_cons]
        · by_cases hxs : x.threadId ∈ seen
          · simp [hx, hxs, List.mem_cons]
          · simp [hx, hxs, List.mem_cons]
      rw [h1, h2] at hsplit
      have e1 : ((s :: rest).filter fun x => x.threadId = s.threadId) =
          s :: (rest.filter fun x => x.threadId = s.threadId) := by
        rw [List.filter_cons]
        simp
      have e2 : ((s :: rest).filter fun x => x.threadId ∉ seen) =
          s :: (rest.filter fun x => x.threadId ∉ seen) := by
        rw [List.filter_cons]
        simp [hs]
      rw [e1, e2]
      simp only [List.length_cons]
      omega

theorem sum_filter_threadKeys (l : List SpanRecord) :
    ((threadKeys l).map fun t => (l.filter fun x => x.threadId = t).length).sum = l.length := by
  rw [threadKeys, sum_filter_threadKeysAux l []]
  have h0 : ∀ m : List SpanRecord, (m.filter fun x => x.threadId ∉ ([] : List Nat)) = m := by
    intro m
    induction m with
    | nil => rfl
    | cons a m ih =>
      rw [List.filter_cons]
      simp [ih]
  rw [h0]

theorem import_spans_length (spans : List SpanRecord) :
    (import_spans spans).length = spans.length := by
  rw [import_spans, build_thread_traces, List.flatMap_map, List.length_flatMap]
  have hpt : ∀ t ∈ threadKeys (spans.map defaultParent),
      (List.length ∘ fun t => processThread
          (List.insertionSort spanLe ((spans.map defaultParent).filter fun s => s.threadId = t))) t =
        (fun t => (((spans.map defaultParent).filter fun x => x.threadId = t)).length) t := by
    intro t _
    simp only [Function.comp_apply]
    rw [processThread_length]
    exact (List.perm_insertionSort spanLe _).length_eq
  rw [List.map_congr_left hpt, sum_filter_threadKeys, List.length_map]

/-- C5: for every input, the pipeline emits exactly one scope per record;
with zero records the run completes and emits zero scopes. -/
theorem c5_scope_count :
    (∀ spans : List SpanRecord, (import_spans spans).length = spans.length) ∧
      (import_spans [] = []) :=
  ⟨import_spans_length, rfl⟩

/-- C8: the pop-and-attach traversal is a total function of the record
list: for every finite record list, in every timestamp order — sorted or
not, overlapping or not — it terminates and yields exactly one emission
per record. -/
theorem c8_traversal_total (spans : List SpanRecord) :
    (processThread spans).length = spans.length :=
  processThread_length spans

theorem mem_popCompleted (t : Int) :
    ∀ (stack : List StackEntry) (e : StackEntry), e ∈ popCompleted t stack → e ∈ stack := by
  intro stack
  induction stack with
  | nil => intro e h; exact h
  | cons f rest ih =>
    intro e h
    rw [popCompleted] at h
    by_cases hf : f.end_ns ≤ t
    · rw [if_pos hf] at h
      exact List.mem_cons_of_mem _ (ih e h)
    · rw [if_neg hf] at h
      exact h

/-- Any parent stored in an emission of the traversal came either from the
initial stack or from a record of this run that survived its own pop
phase, i.e. whose end is strictly greater than its start. -/
theorem parent_source :
    ∀ (spans : List SpanRecord) (i : Nat) (stack : List StackEntry),
      (∀ e ∈ stack, e.idx < i) →
      ∀ em ∈ processThreadAux spans i stack, ∀ tgt : Nat, em.parent = some tgt →
        (∃ e ∈ stack, e.idx = tgt) ∨
          ∃ k : Nat, ∃ hk : k < spans.length, tgt = i + k ∧
            ¬ (spans.get ⟨k, hk⟩).endTimeUnixNano ≤ (spans.get ⟨k, hk⟩).startTimeUnixNano := by
  intro spans
  induction spans with
  | nil => intro i stack hstack em hem; cases hem
  | cons s rest ih =>
    intro i stack hstack em hem tgt hpar
    rw [processThreadAux] at hem
    rcases List.mem_cons.mp hem with h | h
    · subst h
      simp only [mkEmission] at hpar
      rcases Option.map_eq_some'.mp hpar with ⟨e, he, hei⟩
      cases stack with
      | nil => cases he
      | cons f fs =>
        left
        refine ⟨f, List.mem_cons_self _ _, ?_⟩
        simp only [List.head?_cons, Option.some.injEq] at he
        rw [he]
        exact hei
    · have hstack1 : ∀ e ∈ popCompleted s.startTimeUnixNano
          ({ end_ns := s.endTimeUnixNano, idx := i } :: stack), e.idx < i + 1 := by
        intro e he
        have hm := mem_popCompleted _ _ e he
        rcases List.mem_cons.mp hm with h1 | h1
        · rw [h1]
          exact Nat.lt_succ_self i
        · exact Nat.lt_succ_of_lt (hstack e h1)
      rcases ih (i + 1) _ hstack1 em h tgt hpar with ⟨e, he, hei⟩ | ⟨k, hk, hik, hcond⟩
      · have hmem := mem_popCompleted _ _ e he
        rcases List.mem_cons.mp hmem with h1 | h1
        · right
          refine ⟨0, Nat.succ_pos _, ?_, ?_⟩
          · rw [← hei, h1]
            simp
          · intro hcon
            have hsame : popCompleted s.startTimeUnixNano
                ({ end_ns := s.endTimeUnixNano, idx := i } :: stack) =
                  popCompleted s.startTimeUnixNano stack := by
              have hcon2 : ({ end_ns := s.endTimeUnixNano, idx := i } : StackEntry).end_ns ≤
                  s.startTimeUnixNano := hcon
              rw [popCompleted, if_pos hcon2]
            rw [hsame] at he
            have h2 := hstack e (mem_popCompleted _ _ e he)
            rw [h1] at h2
            exact Nat.lt_irrefl i h2
        · exact Or.inl ⟨e, h1, hei⟩
      · right
        refine ⟨k + 1, Nat.succ_lt_succ hk, by omega, ?_⟩
        exact hcond

/-- C10: a record whose `endTimeUnixNano` equals its `startTimeUnixNano`
satisfies the pop condition the moment it is pushed, so it is removed from
the stack during its own processing step and is never the parent of any
record of its thread. -/
theorem c10_zero_duration_never_parent (spans : List SpanRecord) (i : Nat)
    (hi : i < spans.length)
    (hzero : (spans.get ⟨i, hi⟩).endTimeUnixNano = (spans.get ⟨i, hi⟩).startTimeUnixNano) :
    ∀ em ∈ processThread spans, em.parent ≠ some i := by
  intro em hem hpar
  rcases parent_source spans 0 [] (fun e he => absurd he (List.not_mem_nil e)) em hem i hpar with
    ⟨e, he, _⟩ | ⟨k, hk, hik, hcond⟩
  · exact absurd he (List.not_mem_nil e)
  · have hki : k = i := by omega
    subst hki
    exact hcond (le_of_eq hzero)

/-- A zero-duration record: its interval is the point [5, 5]. -/
def recZ : SpanRecord := mkRec 7 5 5 ("z") ("aa11") ("dd")

/-- A later record on the same thread as `recZ`. -/
def recD : SpanRecord := mkRec 7 5 20 ("d") ("aa11") ("ee")

/-- Witness for C10 at a concrete thread. -/
theorem c10_zero_duration_witness :
    ((processThread [recZ, recD]).all fun em => em.parent ≠ some 0) = true := by
  have h := c10_zero_duration_never_parent [recZ, recD] 0 (by decide) (by decide)
  rw [List.all_eq_true]
  intro em hem
  simpa using h em hem

/-- C1 (evaluation at the failing input): on spec Scenario 3 — one thread,
sorted records `[0,100]`, `[10,50]`, `[60,90]` — the pipeline parents
record 3 under record 2 (emission parents `[none, some 0, some 1]`), not
under record 1 as the claim states: the pop at lines 85-86 runs only after
the current record is pushed and compares against the *current* record's
start, so record 2 (ended at 50) is still on the stack when record 3
(starting at 60) picks its parent. -/
theorem c1_scenario3_eval :
    (import_spans [recA, recB, recC]).map (fun em => em.parent) =
      [none, some 0, some 1] := by
  decide

/-- C2 counterexample: `recA`'s interval [0,100] fully contains `recC`'s
[60,90] on the same thread, yet record 3's emitted parent is not record 1
(it is record 2, `some 1`). -/
theorem c2_containment_cex :
    recA.startTimeUnixNano ≤ recC.startTimeUnixNano ∧
      recC.endTimeUnixNano ≤ recA.endTimeUnixNano ∧
      recA.threadId = recC.threadId ∧
      ((import_spans [recA, recB, recC]).map fun em => em.parent)[2]? ≠ some (some 0) := by
  decide

theorem processThreadAux_append (l1 : List SpanRecord) :
    ∀ (l2 : List SpanRecord) (i : Nat) (stack : List StackEntry),
      ∃ stack2 : List StackEntry,
        processThreadAux (l1 ++ l2) i stack =
          processThreadAux l1 i stack ++ processThreadAux l2 (i + l1.length) stack2 := by
  induction l1 with
  | nil =>
    intro l2 i stack
    exact ⟨stack, by simp [processThreadAux]⟩
  | cons s rest ih =>
    intro l2 i stack
    obtain ⟨stack2, hs2⟩ :=
      ih l2 (i + 1) (popCompleted s.startTimeUnixNano ({ end_ns := s.endTimeUnixNano, idx := i } :: stack))
    refine ⟨stack2, ?_⟩
    rw [List.cons_append, processThreadAux, hs2, processThreadAux]
    simp only [List.length_cons, List.cons_append]
    have harith : i + 1 + rest.length = i + (rest.length + 1) := by omega
    rw [harith]

/-- C2 amended: when A's interval properly contains B's (A starts strictly
earlier, B ends no later, and B is well-formed with start <= end) *and* B
immediately follows A in the thread's processing order, the traversal
parents B under A. -/
theorem c2_amended_containment_parent (pre rest : List SpanRecord) (A B : SpanRecord)
    (h1 : A.startTimeUnixNano < B.startTimeUnixNano)
    (h2 : B.endTimeUnixNano ≤ A.endTimeUnixNano)
    (h3 : B.startTimeUnixNano ≤ B.endTimeUnixNano) :
    ((processThread (pre ++ A :: B :: rest)).map fun em => em.parent)[pre.length + 1]? =
      some (some pre.length) := by
  obtain ⟨stack2, hs⟩ := processThreadAux_append pre (A :: B :: rest) 0 []
  rw [processThread, hs, List.map_append]
  have hlen : (List.map (fun em => em.parent) (processThreadAux pre 0 [])).length = pre.length := by
    rw [List.length_map, processThreadAux_length]
  rw [List.getElem?_append_right (by omega), hlen]
  have hidx : pre.length + 1 - pre.length = 1 := by omega
  rw [hidx]
  rw [processThreadAux]
  have hAcond : ¬ ({ end_ns := A.endTimeUnixNano, idx := 0 + pre.length } : StackEntry).end_ns ≤
      A.startTimeUnixNano := by
    simp only []
    omega
  rw [processThreadAux]
  simp only [List.map_cons, List.getElem?_cons_succ, List.getElem?_cons_zero]
  rw [popCompleted, if_neg hAcond]
  simp [mkEmission]

/-- Witness for the amended C2 at a concrete pair of records. -/
theorem c2_amended_witness :
    ((processThread ([] ++ recA :: recB :: [])).map fun em => em.parent)[0 + 1]? =
      some (some (List.length ([] : List SpanRecord))) :=
  c2_amended_containment_parent [] [] recA recB (by decide) (by decide) (by decide)

theorem stripParent_defaultParent (r : SpanRecord) :
    stripParent (defaultParent r) = stripParent r := by
  rw [defaultParent]
  by_cases h : r.parentSpanId = none ∨ r.parentSpanId = some ("")
  · rw [if_pos h]
    rfl
  · rw [if_neg h]

theorem mkEmission_stripParent (s : SpanRecord) (p : Option Nat) :
    mkEmission (stripParent s) p = mkEmission s p :=
  rfl

theorem processThreadAux_stripParent :
    ∀ (l : List SpanRecord) (i : Nat) (stack : List StackEntry),
      processThreadAux (l.map stripParent) i stack = processThreadAux l i stack := by
  intro l
  induction l with
  | nil => intro i stack; rfl
  | cons s rest ih =>
    intro i stack
    rw [List.map_cons, processThreadAux, processThreadAux, ih]
    rfl

theorem filter_threadId_map_stripParent (l : List SpanRecord) (t : Nat) :
    ((l.map stripParent).filter fun x => x.threadId = t) =
      (l.filter fun x => x.threadId = t).map stripParent := by
  induction l with
  | nil => rfl
  | cons s rest ih =>
    rw [List.map_cons, List.filter_cons, List.filter_cons]
    by_cases h : s.threadId = t
    · have h2 : (stripParent s).threadId = t := h
      simp [h, h2, ih]
    · have h2 : ¬ (stripParent s).threadId = t := h
      simp [h, h2, ih]

theorem threadKeysAux_map_stripParent :
    ∀ (l : List SpanRecord) (seen : List Nat),
      threadKeysAux (l.map stripParent) seen = threadKeysAux l seen := by
  intro l
  induction l with
  | nil => intro seen; rfl
  | cons s rest ih =>
    intro seen
    rw [List.map_cons, threadKeysAux, threadKeysAux]
    have h2 : (stripParent s).threadId = s.threadId := rfl
    rw [h2]
    by_cases h : s.threadId ∈ seen
    · rw [if_pos h, if_pos h, ih]
    · rw [if_neg h, if_neg h, ih]

theorem orderedInsert_stripParent (a : SpanRecord) :
    ∀ m : List SpanRecord,
      List.orderedInsert spanLe (stripParent a) (m.map stripParent) =
        (List.orderedInsert spanLe a m).map stripParent := by
  intro m
  induction m with
  | nil => rfl
  | cons b rest ih =>
    rw [List.map_cons, List.orderedInsert, List.orderedInsert]
    by_cases h : spanLe a b
    · have h2 : spanLe (stripParent a) (stripParent b) := h
      rw [if_pos h, if_pos h2, List.map_cons, List.map_cons]
    · have h2 : ¬ spanLe (stripParent a) (stripParent b) := h
      rw [if_neg h, if_neg h2, List.map_cons, ih]

theorem insertionSort_stripParent :
    ∀ m : List SpanRecord,
      List.insertionSort spanLe (m.map stripParent) =
        (List.insertionSort spanLe m).map stripParent := by
  intro m
  induction m with
  | nil => rfl
  | cons a rest ih =>
    rw [List.map_cons, List.insertionSort, List.insertionSort, ih, orderedInsert_stripParent]

theorem traverse_stripParent (l : List SpanRecord) :
    ((build_thread_traces (l.map stripParent)).flatMap fun p => processThread p.2) =
      (build_thread_traces l).flatMap fun p => processThread p.2 := by
  rw [build_thread_traces, build_thread_traces, threadKeys, threadKeys,
    threadKeysAux_map_stripParent, List.flatMap_map, List.flatMap_map]
  apply List.flatMap_congr
  intro t _
  rw [filter_threadId_map_stripParent, insertionSort_stripParent, processThread,
    processThread, processThreadAux_stripParent]

/-- C6: the emission — identities, names, attributes, durations and every
assigned parent — depends only on the records with their `parentSpanId`
erased: two inputs identical except for their `parentSpanId` fields
(absent, sentinel, resolving or not) produce identical emissions. -/
theorem c6_parent_id_independent (rs1 rs2 : List SpanRecord)
    (h : rs1.map stripParent = rs2.map stripParent) :
    import_spans rs1 = import_spans rs2 := by
  have key : ∀ rs : List SpanRecord,
      import_spans rs = (build_thread_traces (rs.map stripParent)).flatMap
        fun p => processThread p.2 := by
    intro rs
    rw [import_spans, ← traverse_stripParent (rs.map defaultParent), List.map_map]
    have hcomp : rs.map (stripParent ∘ defaultParent) = rs.map stripParent :=
      List.map_congr_left fun r _ => stripParent_defaultParent r
    rw [hcomp]
  rw [key rs1, key rs2, h]

/-- A record carrying a resolvable-looking `parentSpanId`. -/
def recP1 : SpanRecord :=
  { recA with parentSpanId := some ("b7ad6b7169203331") }

/-- The same record with no `parentSpanId` at all. -/
def recP2 : SpanRecord :=
  { recA with parentSpanId := none }

/-- Witness for C6 at a concrete pair of inputs differing only in
`parentSpanId`. -/
theorem c6_parent_id_independent_witness :
    import_spans [recP1, recB] = import_spans [recP2, recB] :=
  c6_parent_id_independent [recP1, recB] [recP2, recB] (by decide)

theorem filter_start_orderedInsert (v : Int) (a : SpanRecord) :
    ∀ m : List SpanRecord,
      ((List.orderedInsert spanLe a m).filter fun x => x.startTimeUnixNano = v) =
        if a.startTimeUnixNano = v then
          a :: (m.filter fun x => x.startTimeUnixNano = v)
        else m.filter fun x => x.startTimeUnixNano = v := by
  intro m
  induction m with
  | nil =>
    rw [List.orderedInsert_nil, List.filter_cons]
    by_cases hav : a.startTimeUnixNano = v
    · simp [hav]
    · simp [hav]
  | cons b rest ih =>
    rw [List.orderedInsert]
    by_cases hab : spanLe a b
    · rw [if_pos hab, List.filter_cons, List.filter_cons]
      by_cases hav : a.startTimeUnixNano = v
      · simp [hav]
      · simp [hav]
    · rw [if_neg hab, List.filter_cons, ih]
      have hba : b.startTimeUnixNano < a.startTimeUnixNano := by
        rw [spanLe] at hab
        omega
      by_cases hav : a.startTimeUnixNano = v
      · have hbv : ¬ b.startTimeUnixNano = v := by omega
        simp [hav, hbv]
      · by_cases hbv : b.startTimeUnixNano = v
        · simp [hav, hbv]
        · simp [hav, hbv]

theorem filter_start_insertionSort (v : Int) :
    ∀ m : List SpanRecord,
      ((List.insertionSort spanLe m).filter fun x => x.startTimeUnixNano = v) =
        m.filter fun x => x.startTimeUnixNano = v := by
  intro m
  induction m with
  | nil => rfl
  | cons a rest ih =>
    rw [List.insertionSort, filter_start_orderedInsert, ih, List.filter_cons]
    by_cases hav : a.startTimeUnixNano = v
    · simp [hav]
    · simp [hav]

/-- C7: each group produced by `build_thread_traces` consists exactly of
that thread's records, arranged in ascending `startTimeUnixNano` order;
records with equal starts keep their original input order (for every start
value `v`, the records with start `v` appear exactly as they do in the
input restricted to the thread). -/
theorem c7_group_sorted_stable (spans : List SpanRecord) (t : Nat) (l : List SpanRecord)
    (hm : (t, l) ∈ build_thread_traces spans) :
    List.Sorted spanLe l ∧
      l.Perm (spans.filter fun x => x.threadId = t) ∧
      ∀ v : Int,
        (l.filter fun x => x.startTimeUnixNano = v) =
          ((spans.filter fun x => x.threadId = t).filter fun x => x.startTimeUnixNano = v) := by
  rw [build_thread_traces] at hm
  rcases List.mem_map.mp hm with ⟨t2, _, he⟩
  have het : t2 = t := congrArg Prod.fst he
  have hel : List.insertionSort spanLe (spans.filter fun s => s.threadId = t2) = l :=
    congrArg Prod.snd he
  subst het
  subst hel
  refine ⟨List.sorted_insertionSort spanLe _, List.perm_insertionSort spanLe _, ?_⟩
  intro v
  exact filter_start_insertionSort v _

/-- Tie witness record: thread 3, start 5, first in input order. -/
def recW1 : SpanRecord := mkRec 3 5 9 ("x") ("01") ("02")

/-- Tie witness record: thread 3, start 5, second in input order. -/
def recW2 : SpanRecord := mkRec 3 5 8 ("y") ("01") ("03")

/-- Witness record: thread 3, start 1, last in input order. -/
def recW3 : SpanRecord := mkRec 3 1 2 ("w") ("01") ("04")

/-- Witness for C7: on a group with a start-time tie, the group is the
thread's records sorted ascending, the tie keeping input order. -/
theorem c7_group_sorted_stable_witness :
    List.Sorted spanLe [recW3, recW1, recW2] ∧
      List.Perm [recW3, recW1, recW2]
        ([recW1, recW2, recW3].filter fun x => x.threadId = 3) ∧
      ∀ v : Int,
        ([recW3, recW1, recW2].filter fun x => x.startTimeUnixNano = v) =
          ((([recW1, recW2, recW3].filter fun x => x.threadId = 3)).filter
            fun x => x.startTimeUnixNano = v) :=
  c7_group_sorted_stable [recW1, recW2, recW3] 3 [recW3, recW1, recW2] (by decide)

end PgFerret
